import Mathlib

/-!
Verification of a binary logistic-regression implementation: training by
full-batch gradient ascent on the log-likelihood with a golden-section line
search for the step size, ROC-distance threshold calibration, sigmoid
inference, and a line-oriented text persistence format.

Modelling conventions: Python floats are modelled by real numbers, numpy
one-dimensional arrays by lists of reals, two-dimensional arrays by
rectangular lists of rows, and raised exceptions by `Except`/`Option`
results (with the mutated-state-so-far carried alongside the error for the
state-mutating operations `fit` and `load`).  The random initialisation of
the parameters inside `fit` is modelled by passing the initial values as
explicit oracle arguments.
-/

namespace LogReg

noncomputable section

/-- Exceptions that can escape the public operations.  The first five model
the `LogRegError` exception of the source, split by the operation that
raises it (`loadFailed` is the "Parameters cannot be loaded from a file!"
error, the spec's `CorruptFileError`).  `zeroDivisionError` and
`valueError` model the Python builtin exceptions that can leak from the
threshold calibration and from `float()` parsing; `typeError` models the
comparison of a float with `None` inside `predict`. -/
inductive Err where
  | paramsNotSpecified
  | loadFailed
  | inputDataWrong
  | trainDataWrong
  | trainParamsWrong
  | zeroDivisionError
  | valueError
  | typeError
deriving DecidableEq

/-- The model state held by a `LogisticRegression` object: the free term
`__a`, the coefficient vector `__b` and the probability threshold `__th`.
`none` models the Python `None` each attribute starts from. -/
structure State where
  a : Option ℝ
  b : Option (List ℝ)
  th : Option ℝ

/-- A line of the persisted text file, after whitespace trimming.
`header d` is a line of exactly three tokens whose first two are
case-insensitively `input` and `size` and whose third parses as the
integer `d`; `num x` is a line parsing as the float `x`; `blank` is a
line that is empty after trimming; `junk` is any other non-blank line
(neither header-shaped nor float-parseable; header-shaped lines whose
third token is not an integer are outside the model). -/
inductive Line where
  | blank
  | header (d : ℤ)
  | num (x : ℝ)
  | junk

/-- Whether a line is blank after trimming. -/
def Line.isBlank : Line → Bool
  | Line.blank => true
  | _ => false

/-- Number of non-blank lines of a file fragment. -/
def countNonBlank (lines : List Line) : ℕ :=
  (lines.filter fun l => !l.isBlank).length

/-- A two-dimensional numpy array (dense or sparse): a rectangular list of
rows together with its column count. -/
structure NDArray where
  rows : List (List ℝ)
  ncols : ℕ
  wf : ∀ r ∈ rows, r.length = ncols

/-- Row-vector dot product `x.dot(b)`. -/
def dot (x b : List ℝ) : ℝ :=
  ((x.zip b).map fun p => p.1 * p.2).sum

/-- Elementwise vector sum (numpy `u + v` for equal-length vectors). -/
def addVec (u v : List ℝ) : List ℝ :=
  (u.zip v).map fun p => p.1 + p.2

/-- Scalar-vector product (numpy `c * v`). -/
def smulVec (c : ℝ) (v : List ℝ) : List ℝ :=
  v.map fun x => c * x

/-- `__calculate_log_likelihood(X, y, a, b)`: the smoothed log-likelihood
`Σ_i y_i·log(p_i+ε) + (1-y_i)·log(1-p_i+ε)` with `p_i = σ(x_i·b+a)` and
`ε = 1e-6`. -/
def calculate_log_likelihood (X : List (List ℝ)) (y : List ℝ) (a : ℝ) (b : List ℝ) : ℝ :=
  ((X.zip y).map fun xy =>
    xy.2 * Real.log (1 / (1 + Real.exp (-dot xy.1 b - a)) + 0.000001) +
      (1 - xy.2) * Real.log (1 - 1 / (1 + Real.exp (-dot xy.1 b - a)) + 0.000001)).sum

/-- `__calculate_gradient(X, y)` at parameters `a`, `b`: the pair
`(Σ_i (y_i - p_i), Xᵗ·(y - p))`. -/
def calculate_gradient (X : List (List ℝ)) (y : List ℝ) (a : ℝ) (b : List ℝ) : ℝ × List ℝ :=
  let resid := (X.zip y).map fun xy => xy.2 - 1 / (1 + Real.exp (-dot xy.1 b - a))
  (resid.sum, (List.range b.length).map fun j => ((X.zip resid).map fun xe => xe.1.getD j 0 * xe.2).sum)

/-- The golden ratio `(1 + sqrt 5) / 2`, called `theta` in the source. -/
def theta : ℝ := (1 + Real.sqrt 5) / 2

/-- The `while abs(lr_min - lr_max) >= eps` loop of `__find_best_lr`,
generic in the one-dimensional objective `f` evaluated at the two probe
points.  State: current bracket `[lr_min, lr_max]` with probes `lr1`,
`lr2`.  Each pass shrinks the bracket width by the factor `theta`; a fuel
argument makes the recursion structural, and the fuel used by
`find_best_lr` is proved below to be more than the loop can ever consume. -/
def find_best_lr_go (f : ℝ → ℝ) (eps : ℝ) : ℕ → ℝ → ℝ → ℝ → ℝ → ℝ
  | 0, lr_min, lr_max, _, _ => (lr_max - lr_min) / 2
  | n + 1, lr_min, lr_max, lr1, lr2 =>
    if |lr_min - lr_max| < eps then (lr_max - lr_min) / 2
    else if f lr1 ≤ f lr2 then
      find_best_lr_go f eps n lr1 lr_max lr2 (lr1 + (lr_max - lr1) / theta)
    else
      find_best_lr_go f eps n lr_min lr2 (lr2 - (lr2 - lr_min) / theta) lr1

/-- `__find_best_lr(X, y, gradient, lr_max)` at current parameters `a`,
`b`: golden-section search of the learning rate over `[0, lr_max]`, with
absolute tolerance `1e-5 * (lr_max - 0)`, maximising the log-likelihood at
the stepped parameters.  Returns `(lr_max - lr_min) / 2` for the final
bracket. -/
def find_best_lr (X : List (List ℝ)) (y : List ℝ) (a : ℝ) (b : List ℝ)
    (gradient : ℝ × List ℝ) (lr_max : ℝ) : ℝ :=
  find_best_lr_go
    (fun lr => calculate_log_likelihood X y (a + lr * gradient.1) (addVec b (smulVec lr gradient.2)))
    (0.00001 * (lr_max - 0)) 100 0 lr_max
    (lr_max - (lr_max - 0) / theta) (0 + (lr_max - 0) / theta)

/-- Modelled from the spec: the same golden-section bracket reduction, but
returning the midpoint `(lr_min + lr_max) / 2` of the final bracket, as the
spec's words "returns midpoint of final bracket" describe.  Used only to
compare the source's return value against the spec's. -/
def find_best_lr_spec_go (f : ℝ → ℝ) (eps : ℝ) : ℕ → ℝ → ℝ → ℝ → ℝ → ℝ
  | 0, lr_min, lr_max, _, _ => (lr_min + lr_max) / 2
  | n + 1, lr_min, lr_max, lr1, lr2 =>
    if |lr_min - lr_max| < eps then (lr_min + lr_max) / 2
    else if f lr1 ≤ f lr2 then
      find_best_lr_spec_go f eps n lr1 lr_max lr2 (lr1 + (lr_max - lr1) / theta)
    else
      find_best_lr_spec_go f eps n lr_min lr2 (lr2 - (lr2 - lr_min) / theta) lr1

/-- Modelled from the spec: `find_best_lr` with the spec's
midpoint-of-final-bracket return value. -/
def find_best_lr_spec (X : List (List ℝ)) (y : List ℝ) (a : ℝ) (b : List ℝ)
    (gradient : ℝ × List ℝ) (lr_max : ℝ) : ℝ :=
  find_best_lr_spec_go
    (fun lr => calculate_log_likelihood X y (a + lr * gradient.1) (addVec b (smulVec lr gradient.2)))
    (0.00001 * (lr_max - 0)) 100 0 lr_max
    (lr_max - (lr_max - 0) / theta) (0 + (lr_max - 0) / theta)

/-- Python float division, which raises `ZeroDivisionError` on a zero
divisor. -/
def safeDiv (u v : ℝ) : Option ℝ :=
  if v = 0 then none else some (u / v)

/-- The confusion-count dictionary of `__calc_quality`. -/
structure Quality where
  tp : ℕ
  tn : ℕ
  fp : ℕ
  fn : ℕ

/-- The counting loop of `__calc_quality` over the paired target and
predicted labels: a sample counts as positive when its value is `> 0.0`. -/
def calc_quality_go : List (ℝ × ℝ) → Quality
  | [] => ⟨0, 0, 0, 0⟩
  | uy :: rest =>
    let q := calc_quality_go rest
    if 0 < uy.1 then
      (if 0 < uy.2 then { q with tp := q.tp + 1 } else { q with fn := q.fn + 1 })
    else
      (if 0 < uy.2 then { q with fp := q.fp + 1 } else { q with tn := q.tn + 1 })

/-- `__calc_quality(y_target, y_real)`: confusion counts of the predicted
labels against the target labels (both arrays have the same length `n`,
the code indexing both by `range(n)`). -/
def calc_quality (y_target y_real : List ℝ) : Quality :=
  calc_quality_go (y_target.zip y_real)

/-- The body of the candidate loop of `__calc_best_th` at threshold `th`:
threshold the probabilities by `y_real >= th`, compute confusion counts,
`tpr = tp/(tp+fn)`, `fpr = fp/(tn+fp)` (either division can raise
`ZeroDivisionError`, modelled by `none`), and the distance
`sqrt((0-fpr)² + (1-tpr)²)` to the ROC corner `(0, 1)`. -/
def rocDist (y_target y_real : List ℝ) (th : ℝ) : Option ℝ :=
  let quality := calc_quality y_target (y_real.map fun p => if th ≤ p then (1 : ℝ) else 0)
  match safeDiv (quality.tp : ℝ) ((quality.tp : ℝ) + (quality.fn : ℝ)),
      safeDiv (quality.fp : ℝ) ((quality.tn : ℝ) + (quality.fp : ℝ)) with
  | some tpr, some fpr => some (Real.sqrt ((0 - fpr) * (0 - fpr) + (1 - tpr) * (1 - tpr)))
  | _, _ => none

/-- The candidate thresholds `float(a) / 100.0` for `a in range(101)`. -/
def candidate_thresholds : List ℝ :=
  (List.range 101).map fun a : ℕ => (a : ℝ) / 100

/-- The scanning loop of `__calc_best_th`: carry the best threshold and
minimal distance so far, update on strict improvement `dist < min_dist`,
abort (propagating the exception) if a candidate's distance is undefined. -/
def calc_best_th_go (g : ℝ → Option ℝ) : List ℝ → ℝ → ℝ → Option ℝ
  | [], best, _ => some best
  | th :: rest, best, mind =>
    match g th with
    | none => none
    | some d => if d < mind then calc_best_th_go g rest th d else calc_best_th_go g rest best mind

/-- `__calc_best_th(y_target, y_real)`: scan the 101 candidate thresholds
starting from `best_th = 0.0`, `min_dist = 1.0`. -/
def calc_best_th (y_target y_real : List ℝ) : Option ℝ :=
  calc_best_th_go (rocDist y_target y_real) candidate_thresholds 0 1

/-- `transform(X)`: per-row probabilities `1 / (1 + exp(-x·b - a))`.
Raises if the parameters are unset, or if the column count of `X` differs
from the length of `b` (`X` being non-null, a numpy or scipy matrix, and
two-dimensional is enforced by the `NDArray` type). -/
def transform (s : State) (X : NDArray) : Except Err (List ℝ) :=
  match s.a, s.b with
  | some a, some b =>
    if X.ncols ≠ b.length then Except.error Err.inputDataWrong
    else Except.ok (X.rows.map fun x => 1 / (1 + Real.exp (-dot x b - a)))
  | _, _ => Except.error Err.paramsNotSpecified

/-- `predict(X)`: `(transform(X) >= th).astype(float)`.  When `__th` is
still `None` the comparison of a float with `None` raises (`TypeError`). -/
def predict (s : State) (X : NDArray) : Except Err (List ℝ) :=
  match transform s X with
  | Except.error e => Except.error e
  | Except.ok probs =>
    match s.th with
    | some th => Except.ok (probs.map fun p => if th ≤ p then (1 : ℝ) else 0)
    | none => Except.error Err.typeError

/-- `save(file_name)`: raises if any parameter is unset; otherwise writes
the header `Input size d`, a blank line, the `d` coefficients one per
line, a blank line, the free term, a blank line and the threshold.  The
result is the written file as a list of lines. -/
def save (s : State) : Except Err (List Line) :=
  match s.a, s.b, s.th with
  | some a, some b, some th =>
    Except.ok ([Line.header (b.length : ℤ), Line.blank] ++ b.map Line.num ++
      [Line.blank, Line.num a, Line.blank, Line.num th])
  | _, _, _ => Except.error Err.paramsNotSpecified

/-- The line-reading loop of `load`.  `size` is `input_size` (`-1` until
the header has been parsed, which must declare a positive size), `ind`
counts the parsed parameters.  After the header, `__b` is zero-initialised
to length `size`, `__a` to `0.0` and `__th` to `0.5`; data lines then
overwrite `__b[ind]` (for `ind < size`), `__a` (at `ind = size`) and
`__th` (later, checked to lie inside `[0, 1]`), with the
too-much-information check `ind > input_size + 1` performed before parsing
a line.  Non-float lines after the header make `float()` raise
`ValueError`.  At end of file, `ind <= input_size + 1` raises.  The state
mutated so far is returned alongside the error, as the source mutates
`self` progressively. -/
def loadGo : List Line → State → ℤ → ℕ → State × Option Err
  | [], st, size, ind =>
    if (ind : ℤ) ≤ size + 1 then (st, some Err.loadFailed) else (st, none)
  | Line.blank :: rest, st, size, ind => loadGo rest st size ind
  | Line.header d :: rest, st, size, ind =>
    if size ≤ 0 then
      (if d ≤ 0 then (st, some Err.loadFailed)
       else loadGo rest ⟨some 0, some (List.replicate d.toNat 0), some (1 / 2)⟩ d ind)
    else if (ind : ℤ) > size + 1 then (st, some Err.loadFailed)
    else (st, some Err.valueError)
  | Line.junk :: _, st, size, ind =>
    if size ≤ 0 then (st, some Err.loadFailed)
    else if (ind : ℤ) > size + 1 then (st, some Err.loadFailed)
    else (st, some Err.valueError)
  | Line.num x :: rest, st, size, ind =>
    if size ≤ 0 then (st, some Err.loadFailed)
    else if (ind : ℤ) > size + 1 then (st, some Err.loadFailed)
    else if (ind : ℤ) < size then
      loadGo rest { st with b := some ((st.b.getD []).set ind x) } size (ind + 1)
    else if (ind : ℤ) = size then loadGo rest { st with a := some x } size (ind + 1)
    else if x < 0 ∨ 1 < x then ({ st with th := some x }, some Err.loadFailed)
    else loadGo rest { st with th := some x } size (ind + 1)

/-- `load(file_name)`: run the reading loop from `input_size = -1`,
`ind = 0` on the current state. -/
def load (s : State) (lines : List Line) : State × Option Err :=
  loadGo lines s (-1) 0

/-- The `while not stop` training loop of `fit`, with the current
iteration body: compute the gradient, pick the step by golden-section
search, update the parameters, recompute the log-likelihood, stop when it
grew by less than `eps` (or decreased); otherwise count the iteration and
stop once `iterations_number` reaches `max_iters`.  The fuel is
`max_iters - 1 - iterations_number` (the loop continues exactly while the
incremented counter stays below `max_iters`), so `fit` passes
`max_iters - 2`.  Returns the final parameters together with the number of
gradient updates performed. -/
def fitLoopGo (X : List (List ℝ)) (y : List ℝ) (eps lr_max : ℝ) :
    ℕ → ℝ → List ℝ → ℝ → ℝ × List ℝ × ℕ
  | 0, a, b, _ =>
    let g := calculate_gradient X y a b
    let lr := find_best_lr X y a b g lr_max
    (a + lr * g.1, addVec b (smulVec lr g.2), 1)
  | fuel + 1, a, b, f_old =>
    let g := calculate_gradient X y a b
    let lr := find_best_lr X y a b g lr_max
    let a1 := a + lr * g.1
    let b1 := addVec b (smulVec lr g.2)
    if calculate_log_likelihood X y a1 b1 - f_old < eps then (a1, b1, 1)
    else
      let r := fitLoopGo X y eps lr_max fuel a1 b1 (calculate_log_likelihood X y a1 b1)
      (r.1, r.2.1, r.2.2 + 1)

/-- `fit(X, y, eps, lr_max, max_iters)`: validate the training data
(`X.rows` and `y` of equal length; the remaining checks are enforced by
the types) and the hyperparameters, initialise the parameters from the
random oracle values `a0`, `b0` (the source draws them uniformly from
`[-0.5, 0.5]`, with `b0` of length `X.shape[1]`), run the gradient-ascent
loop, then calibrate the threshold on the training predictions.  A
division-by-zero inside the calibration propagates with `__a`/`__b`
already overwritten and `__th` untouched. -/
def fit (s : State) (X : NDArray) (y : List ℝ) (eps lr_max : ℝ) (max_iters : ℕ)
    (a0 : ℝ) (b0 : List ℝ) : State × Option Err :=
  if X.rows.length ≠ y.length then (s, some Err.trainDataWrong)
  else if eps ≤ 0 ∨ lr_max ≤ 0 ∨ max_iters < 1 then (s, some Err.trainParamsWrong)
  else
    let r := fitLoopGo X.rows y eps lr_max (max_iters - 2) a0 b0
      (calculate_log_likelihood X.rows y a0 b0)
    let s1 : State := ⟨some r.1, some r.2.1, s.th⟩
    match transform s1 X with
    | Except.error e => (s1, some e)
    | Except.ok probs =>
      match calc_best_th y probs with
      | none => (s1, some Err.zeroDivisionError)
      | some t => ({ s1 with th := some t }, none)

/-- The definedness invariant of the model state: the three attributes are
all set or all unset. -/
def allOrNone (s : State) : Prop :=
  (s.a.isSome ∧ s.b.isSome ∧ s.th.isSome) ∨ (s.a = none ∧ s.b = none ∧ s.th = none)

/-- All three attributes are set. -/
def allSome (s : State) : Prop :=
  s.a.isSome ∧ s.b.isSome ∧ s.th.isSome

/-- The invariant tying the two probe points of the golden-section loop to
the current bracket. -/
def GoldenInv (lo hi l1 l2 : ℝ) : Prop :=
  lo ≤ hi ∧ l1 = hi - (hi - lo) / theta ∧ l2 = lo + (hi - lo) / theta

/-- Sequential overwriting of list entries from position `ind`, as the
weight lines of a file overwrite the zero-initialised `__b`. -/
def setSeq (cur : List ℝ) (ind : ℕ) : List ℝ → List ℝ
  | [] => cur
  | w :: ws => setSeq (cur.set ind w) (ind + 1) ws

/-- A concrete 1-by-1 training matrix, used for concrete runs. -/
def mat11 : NDArray :=
  ⟨[[1]], 1, by intro r hr; rw [List.mem_singleton] at hr; subst hr; rfl⟩

end

/-! ### Facts about the golden ratio -/

lemma sqrt5_lb : (11 / 5 : ℝ) ≤ Real.sqrt 5 := by
  have h := Real.sq_sqrt (by norm_num : (0 : ℝ) ≤ 5)
  have hnn := Real.sqrt_nonneg 5
  nlinarith

lemma theta_ge : (8 / 5 : ℝ) ≤ theta := by
  have := sqrt5_lb
  unfold theta
  linarith

lemma one_lt_theta : (1 : ℝ) < theta := by linarith [theta_ge]

lemma theta_pos : (0 : ℝ) < theta := by linarith [one_lt_theta]

lemma theta_sq : theta * theta = theta + 1 := by
  have h := Real.sq_sqrt (by norm_num : (0 : ℝ) ≤ 5)
  unfold theta
  linear_combination h / 4

/-! ### The golden-section bracket invariant -/

lemma goldenInv_branch1 (lo hi l1 l2 : ℝ) (h : GoldenInv lo hi l1 l2) :
    GoldenInv l1 hi l2 (l1 + (hi - l1) / theta) ∧ hi - l1 = (hi - lo) / theta := by
  obtain ⟨hle, h1, h2⟩ := h
  have hθ0 : theta ≠ 0 := ne_of_gt theta_pos
  have hw : hi - l1 = (hi - lo) / theta := by rw [h1]; ring
  refine ⟨⟨?_, ?_, ?_⟩, hw⟩
  · have : 0 ≤ (hi - lo) / theta := div_nonneg (by linarith) (le_of_lt theta_pos)
    linarith [hw]
  · rw [h2, h1]
    field_simp
    linear_combination (lo - hi) * theta * theta_sq
  · rw [hw]

lemma goldenInv_branch2 (lo hi l1 l2 : ℝ) (h : GoldenInv lo hi l1 l2) :
    GoldenInv lo l2 (l2 - (l2 - lo) / theta) l1 ∧ l2 - lo = (hi - lo) / theta := by
  obtain ⟨hle, h1, h2⟩ := h
  have hθ0 : theta ≠ 0 := ne_of_gt theta_pos
  have hw : l2 - lo = (hi - lo) / theta := by rw [h2]; ring
  refine ⟨⟨?_, rfl, ?_⟩, hw⟩
  · have : 0 ≤ (hi - lo) / theta := div_nonneg (by linarith) (le_of_lt theta_pos)
    linarith [hw]
  · rw [h1, h2]
    field_simp
    linear_combination (hi - lo) * theta * theta_sq

lemma goldenInv_l1_between (lo hi l1 l2 : ℝ) (h : GoldenInv lo hi l1 l2) :
    lo ≤ l1 ∧ l1 ≤ hi := by
  obtain ⟨hle, h1, _⟩ := h
  have hw0 : 0 ≤ hi - lo := by linarith
  have hd : (hi - lo) / theta ≤ hi - lo := div_le_self hw0 (le_of_lt one_lt_theta)
  have hd0 : 0 ≤ (hi - lo) / theta := div_nonneg hw0 (le_of_lt theta_pos)
  constructor <;> [rw [h1]; rw [h1]] <;> linarith

lemma goldenInv_l2_between (lo hi l1 l2 : ℝ) (h : GoldenInv lo hi l1 l2) :
    lo ≤ l2 ∧ l2 ≤ hi := by
  obtain ⟨hle, _, h2⟩ := h
  have hw0 : 0 ≤ hi - lo := by linarith
  have hd : (hi - lo) / theta ≤ hi - lo := div_le_self hw0 (le_of_lt one_lt_theta)
  have hd0 : 0 ≤ (hi - lo) / theta := div_nonneg hw0 (le_of_lt theta_pos)
  constructor <;> [rw [h2]; rw [h2]] <;> linarith

/-- The loop's return value is nonnegative and at most half the initial
bracket width, whatever the objective does. -/
lemma find_best_lr_go_bounds (f : ℝ → ℝ) (eps : ℝ) :
    ∀ (n : ℕ) (lo hi l1 l2 : ℝ), GoldenInv lo hi l1 l2 → 0 ≤ lo →
      0 ≤ find_best_lr_go f eps n lo hi l1 l2 ∧
        2 * find_best_lr_go f eps n lo hi l1 l2 ≤ hi - lo := by
  intro n
  induction n with
  | zero =>
    intro lo hi l1 l2 hinv _
    simp only [find_best_lr_go]
    constructor <;> linarith [hinv.1]
  | succ n ih =>
    intro lo hi l1 l2 hinv hlo
    simp only [find_best_lr_go]
    split_ifs with hstop hbranch
    · constructor <;> linarith [hinv.1]
    · obtain ⟨hinv1, hw⟩ := goldenInv_branch1 lo hi l1 l2 hinv
      have hl1 : 0 ≤ l1 := le_trans hlo (goldenInv_l1_between lo hi l1 l2 hinv).1
      have hrec := ih l1 hi l2 (l1 + (hi - l1) / theta) hinv1 hl1
      have hd : (hi - lo) / theta ≤ hi - lo :=
        div_le_self (by linarith [hinv.1]) (le_of_lt one_lt_theta)
      exact ⟨hrec.1, by linarith [hrec.2, hw]⟩
    · obtain ⟨hinv2, hw⟩ := goldenInv_branch2 lo hi l1 l2 hinv
      have hrec := ih lo l2 (l2 - (l2 - lo) / theta) l1 hinv2 hlo
      have hd : (hi - lo) / theta ≤ hi - lo :=
        div_le_self (by linarith [hinv.1]) (le_of_lt one_lt_theta)
      exact ⟨hrec.1, by linarith [hrec.2, hw]⟩

/-- With enough fuel the loop always exits through the tolerance test (or
with an even smaller bracket), so twice the returned value is below the
tolerance: the bracket width shrinks by a factor `theta` on every pass. -/
lemma find_best_lr_go_small (f : ℝ → ℝ) (eps : ℝ) (heps : 0 < eps) :
    ∀ (n : ℕ) (lo hi l1 l2 : ℝ), GoldenInv lo hi l1 l2 →
      hi - lo < eps * theta ^ n →
      2 * find_best_lr_go f eps n lo hi l1 l2 < eps := by
  intro n
  induction n with
  | zero =>
    intro lo hi l1 l2 _ hwidth
    simp only [find_best_lr_go]
    simp only [pow_zero, mul_one] at hwidth
    linarith
  | succ n ih =>
    intro lo hi l1 l2 hinv hwidth
    simp only [find_best_lr_go]
    split_ifs with hstop hbranch
    · have habs : |lo - hi| = hi - lo := by
        rw [abs_sub_comm]
        exact abs_of_nonneg (by linarith [hinv.1])
      rw [habs] at hstop
      linarith
    · obtain ⟨hinv1, hw⟩ := goldenInv_branch1 lo hi l1 l2 hinv
      refine ih l1 hi l2 (l1 + (hi - l1) / theta) hinv1 ?_
      rw [hw, div_lt_iff theta_pos]
      calc hi - lo < eps * theta ^ (n + 1) := hwidth
        _ = eps * theta ^ n * theta := by ring
    · obtain ⟨hinv2, hw⟩ := goldenInv_branch2 lo hi l1 l2 hinv
      refine ih lo l2 (l2 - (l2 - lo) / theta) l1 hinv2 ?_
      rw [hw, div_lt_iff theta_pos]
      calc hi - lo < eps * theta ^ (n + 1) := hwidth
        _ = eps * theta ^ n * theta := by ring

lemma theta_pow_100 : (100000 : ℝ) < theta ^ 100 := by
  have h1 : ((8 : ℝ) / 5) ^ 100 ≤ theta ^ 100 :=
    pow_le_pow_left (by norm_num) theta_ge 100
  have h2 : ((8 : ℝ) / 5) ^ 25 ≤ ((8 : ℝ) / 5) ^ 100 :=
    pow_le_pow_right (by norm_num) (by norm_num)
  have h3 : (100000 : ℝ) < ((8 : ℝ) / 5) ^ 25 := by norm_num
  linarith

lemma goldenInv_init (M : ℝ) (h : 0 ≤ M) :
    GoldenInv 0 M (M - (M - 0) / theta) (0 + (M - 0) / theta) :=
  ⟨by linarith, rfl, rfl⟩

/-- C1 (amended): for every training set, current parameters, gradient and
`lr_max > 0`, `__find_best_lr` performs golden-section bracket reduction
over `[0, lr_max]` with ratio `theta = (1+sqrt 5)/2` and tolerance
`tau = 1e-5 * lr_max`, terminates, and returns HALF THE WIDTH of the final
bracket (not its midpoint): a value that is nonnegative, below `tau / 2`,
and in particular lies in `[0, lr_max]`. -/
theorem find_best_lr_returns_half_width (X : List (List ℝ)) (y : List ℝ) (a : ℝ)
    (b : List ℝ) (gradient : ℝ × List ℝ) (lr_max : ℝ) (h : 0 < lr_max) :
    0 ≤ find_best_lr X y a b gradient lr_max ∧
      find_best_lr X y a b gradient lr_max < 0.00001 * lr_max / 2 ∧
      find_best_lr X y a b gradient lr_max ≤ lr_max := by
  have hinv := goldenInv_init lr_max (le_of_lt h)
  have heps : (0 : ℝ) < 0.00001 * (lr_max - 0) := by norm_num [h]
  have hwidth : lr_max - 0 < 0.00001 * (lr_max - 0) * theta ^ 100 := by
    have := theta_pow_100
    nlinarith
  have hb := find_best_lr_go_bounds
    (fun lr => calculate_log_likelihood X y (a + lr * gradient.1)
      (addVec b (smulVec lr gradient.2)))
    (0.00001 * (lr_max - 0)) 100 0 lr_max
    (lr_max - (lr_max - 0) / theta) (0 + (lr_max - 0) / theta) hinv le_rfl
  have hs := find_best_lr_go_small
    (fun lr => calculate_log_likelihood X y (a + lr * gradient.1)
      (addVec b (smulVec lr gradient.2)))
    (0.00001 * (lr_max - 0)) heps 100 0 lr_max
    (lr_max - (lr_max - 0) / theta) (0 + (lr_max - 0) / theta) hinv hwidth
  unfold find_best_lr
  refine ⟨hb.1, by linarith, by linarith [hb.2]⟩

/-- Closed instance of `find_best_lr_returns_half_width`, discharging its
hypothesis at `lr_max = 1`. -/
theorem find_best_lr_returns_half_width_witness :
    (0 : ℝ) < 1 ∧
      (0 ≤ find_best_lr [] [] 0 [0] (0, [0]) 1 ∧
        find_best_lr [] [] 0 [0] (0, [0]) 1 < 0.00001 * 1 / 2 ∧
        find_best_lr [] [] 0 [0] (0, [0]) 1 ≤ 1) :=
  ⟨by norm_num, find_best_lr_returns_half_width [] [] 0 [0] (0, [0]) 1 (by norm_num)⟩

/-- On a constant objective the loop never moves the upper bracket end, so
the midpoint of the final bracket stays at least half the upper end. -/
lemma find_best_lr_spec_go_const (f : ℝ → ℝ) (eps : ℝ) (hf : ∀ u v : ℝ, f u ≤ f v) :
    ∀ (n : ℕ) (lo hi l1 l2 : ℝ), GoldenInv lo hi l1 l2 → 0 ≤ lo →
      hi ≤ 2 * find_best_lr_spec_go f eps n lo hi l1 l2 := by
  intro n
  induction n with
  | zero =>
    intro lo hi l1 l2 _ hlo
    simp only [find_best_lr_spec_go]
    linarith
  | succ n ih =>
    intro lo hi l1 l2 hinv hlo
    simp only [find_best_lr_spec_go]
    split_ifs with hstop hbranch
    · linarith
    · obtain ⟨hinv1, _⟩ := goldenInv_branch1 lo hi l1 l2 hinv
      exact ih l1 hi l2 (l1 + (hi - l1) / theta) hinv1
        (le_trans hlo (goldenInv_l1_between lo hi l1 l2 hinv).1)
    · exact absurd (hf l1 l2) hbranch

lemma calculate_log_likelihood_nil (y : List ℝ) (a : ℝ) (b : List ℝ) :
    calculate_log_likelihood [] y a b = 0 := by
  simp [calculate_log_likelihood]

/-- C1 counterexample: on the empty training set (over which the objective
is constantly zero) with `lr_max = 1`, the value `__find_best_lr` returns
differs from the midpoint of the final bracket that the spec describes:
the source returns half the final bracket width (below `tau / 2 = 5e-6`),
while the final bracket's midpoint exceeds `1/2`. -/
theorem find_best_lr_not_bracket_midpoint :
    find_best_lr [] [] 0 [0] (0, [0]) 1 ≠ find_best_lr_spec [] [] 0 [0] (0, [0]) 1 := by
  have hinv := goldenInv_init 1 (by norm_num)
  have hf : ∀ u v : ℝ,
      (fun lr => calculate_log_likelihood [] [] (0 + lr * (0, ([0] : List ℝ)).1)
        (addVec [0] (smulVec lr (0, ([0] : List ℝ)).2))) u ≤
      (fun lr => calculate_log_likelihood [] [] (0 + lr * (0, ([0] : List ℝ)).1)
        (addVec [0] (smulVec lr (0, ([0] : List ℝ)).2))) v := by
    intro u v
    simp only [calculate_log_likelihood_nil]
    exact le_rfl
  have hsmall : 2 * find_best_lr [] [] 0 [0] (0, [0]) 1 < 0.00001 * ((1 : ℝ) - 0) := by
    unfold find_best_lr
    refine find_best_lr_go_small _ _ (by norm_num) 100 0 1 _ _ hinv ?_
    have := theta_pow_100
    nlinarith
  have hmid : (1 : ℝ) ≤ 2 * find_best_lr_spec [] [] 0 [0] (0, [0]) 1 := by
    unfold find_best_lr_spec
    exact find_best_lr_spec_go_const _ _ hf 100 0 1 _ _ hinv le_rfl
  intro heq
  rw [heq] at hsmall
  norm_num at hsmall hmid
  linarith

/-! ### Inference engine -/

lemma transform_of_some (a : ℝ) (b : List ℝ) (th : Option ℝ) (X : NDArray)
    (h : X.ncols = b.length) :
    transform ⟨some a, some b, th⟩ X =
      Except.ok (X.rows.map fun x => 1 / (1 + Real.exp (-dot x b - a))) := by
  simp only [transform]
  rw [if_neg (by rw [h]; exact fun hc => hc rfl)]

/-- C6: for a fitted model with weights `b` and bias `a` and an input with
matching column count, `transform` returns one value per row, equal to
`1 / (1 + exp(-(x·b + a)))` for that row, and every returned value lies
strictly between 0 and 1. -/
theorem transform_values_in_open_interval (s : State) (X : NDArray) (a : ℝ) (b : List ℝ)
    (ha : s.a = some a) (hb : s.b = some b) (hX : X.ncols = b.length) :
    transform s X = Except.ok (X.rows.map fun x => 1 / (1 + Real.exp (-(dot x b + a)))) ∧
      ∀ x ∈ X.rows, 0 < 1 / (1 + Real.exp (-(dot x b + a))) ∧
        1 / (1 + Real.exp (-(dot x b + a))) < 1 := by
  have harg : ∀ x : List ℝ, -dot x b - a = -(dot x b + a) := fun x => by ring
  constructor
  · have hs : s = ⟨some a, some b, s.th⟩ := by
      cases s
      simp_all
    rw [hs, transform_of_some a b _ X hX]
    simp only [harg]
  · intro x _
    have hex := Real.exp_pos (-(dot x b + a))
    constructor
    · positivity
    · rw [div_lt_one (by linarith)]
      linarith

/-- Closed instance of `transform_values_in_open_interval` at a concrete
fitted state and input. -/
theorem transform_values_in_open_interval_witness :
    transform ⟨some 0, some [0], none⟩ mat11 =
        Except.ok (mat11.rows.map fun x => 1 / (1 + Real.exp (-(dot x [0] + 0)))) ∧
      ∀ x ∈ mat11.rows, 0 < 1 / (1 + Real.exp (-(dot x [0] + 0))) ∧
        1 / (1 + Real.exp (-(dot x [0] + 0))) < 1 :=
  transform_values_in_open_interval ⟨some 0, some [0], none⟩ mat11 0 [0] rfl rfl rfl

/-- C7: for a model whose threshold is set to `t`, `predict` is exactly
`transform` followed by elementwise thresholding: it fails on exactly the
inputs `transform` fails on (with the same error), and on success each
label is `1.0` if the probability is at least `t` and `0.0` otherwise. -/
theorem predict_iff_threshold (s : State) (t : ℝ) (hth : s.th = some t) (X : NDArray) :
    predict s X =
        Except.map (fun probs => probs.map fun p => if t ≤ p then (1 : ℝ) else 0)
          (transform s X) ∧
      ∀ p : ℝ, ((if t ≤ p then (1 : ℝ) else 0) = 1 ↔ t ≤ p) ∧
        (¬t ≤ p → (if t ≤ p then (1 : ℝ) else 0) = 0) := by
  constructor
  · unfold predict
    cases htr : transform s X with
    | error e => simp [Except.map]
    | ok probs => simp [hth, Except.map]
  · intro p
    constructor
    · constructor
      · intro h1
        by_contra hc
        rw [if_neg hc] at h1
        norm_num at h1
      · intro h1
        rw [if_pos h1]
    · intro h1
      rw [if_neg h1]

/-- Closed instance of `predict_iff_threshold` at a concrete fitted state
and input. -/
theorem predict_iff_threshold_witness :
    predict ⟨some 0, some [0], some (1 / 2)⟩ mat11 =
        Except.map (fun probs => probs.map fun p => if (1 / 2 : ℝ) ≤ p then (1 : ℝ) else 0)
          (transform ⟨some 0, some [0], some (1 / 2)⟩ mat11) ∧
      ∀ p : ℝ, ((if (1 / 2 : ℝ) ≤ p then (1 : ℝ) else 0) = 1 ↔ (1 / 2 : ℝ) ≤ p) ∧
        (¬(1 / 2 : ℝ) ≤ p → (if (1 / 2 : ℝ) ≤ p then (1 : ℝ) else 0) = 0) :=
  predict_iff_threshold ⟨some 0, some [0], some (1 / 2)⟩ (1 / 2) rfl mat11

/-! ### The training loop -/

lemma fitLoopGo_count_bounds (X : List (List ℝ)) (y : List ℝ) (eps lr_max : ℝ) :
    ∀ (fuel : ℕ) (a : ℝ) (b : List ℝ) (f_old : ℝ),
      1 ≤ (fitLoopGo X y eps lr_max fuel a b f_old).2.2 ∧
        (fitLoopGo X y eps lr_max fuel a b f_old).2.2 ≤ fuel + 1 := by
  intro fuel
  induction fuel with
  | zero =>
    intro a b f_old
    simp [fitLoopGo]
  | succ n ih =>
    intro a b f_old
    simp only [fitLoopGo]
    split_ifs with h
    · simp
    · have hr := ih (a + find_best_lr X y a b (calculate_gradient X y a b) lr_max *
          (calculate_gradient X y a b).1)
        (addVec b (smulVec (find_best_lr X y a b (calculate_gradient X y a b) lr_max)
          (calculate_gradient X y a b).2))
        (calculate_log_likelihood X y
          (a + find_best_lr X y a b (calculate_gradient X y a b) lr_max *
            (calculate_gradient X y a b).1)
          (addVec b (smulVec (find_best_lr X y a b (calculate_gradient X y a b) lr_max)
            (calculate_gradient X y a b).2)))
      dsimp only
      exact ⟨by omega, by omega⟩

/-- C8: the `fit` training loop (entered with `iterations_number = 1`,
hence with remaining-iteration fuel `max_iters - 2`) always terminates
after at least one and at most `max_iters` gradient updates, and it stops
after a single update as soon as the first update improves the
log-likelihood by less than `eps` (including when it decreases it). -/
theorem fit_loop_update_count (X : List (List ℝ)) (y : List ℝ) (eps lr_max : ℝ)
    (max_iters : ℕ) (a0 : ℝ) (b0 : List ℝ) (f0 : ℝ) (hmi : 1 ≤ max_iters) :
    1 ≤ (fitLoopGo X y eps lr_max (max_iters - 2) a0 b0 f0).2.2 ∧
      (fitLoopGo X y eps lr_max (max_iters - 2) a0 b0 f0).2.2 ≤ max_iters ∧
      (calculate_log_likelihood X y
          (a0 + find_best_lr X y a0 b0 (calculate_gradient X y a0 b0) lr_max *
            (calculate_gradient X y a0 b0).1)
          (addVec b0 (smulVec (find_best_lr X y a0 b0 (calculate_gradient X y a0 b0) lr_max)
            (calculate_gradient X y a0 b0).2)) - f0 < eps →
        (fitLoopGo X y eps lr_max (max_iters - 2) a0 b0 f0).2.2 = 1) := by
  have hcb := fitLoopGo_count_bounds X y eps lr_max (max_iters - 2) a0 b0 f0
  refine ⟨hcb.1, by omega, ?_⟩
  intro hconv
  cases hm : max_iters - 2 with
  | zero =>
    have h0 := fitLoopGo_count_bounds X y eps lr_max 0 a0 b0 f0
    omega
  | succ n =>
    simp only [fitLoopGo]
    rw [if_pos hconv]

/-- Closed instance of `fit_loop_update_count` at `max_iters = 1`. -/
theorem fit_loop_update_count_witness :
    1 ≤ (fitLoopGo [] [] 1 1 (1 - 2) 0 [] 0).2.2 ∧
      (fitLoopGo [] [] 1 1 (1 - 2) 0 [] 0).2.2 ≤ 1 ∧
      (calculate_log_likelihood [] []
          (0 + find_best_lr [] [] 0 [] (calculate_gradient [] [] 0 []) 1 *
            (calculate_gradient [] [] 0 []).1)
          (addVec [] (smulVec (find_best_lr [] [] 0 [] (calculate_gradient [] [] 0 []) 1)
            (calculate_gradient [] [] 0 []).2)) - 0 < 1 →
        (fitLoopGo [] [] 1 1 (1 - 2) 0 [] 0).2.2 = 1) :=
  fit_loop_update_count [] [] 1 1 1 0 [] 0 (by norm_num)

/-! ### Threshold calibration on degenerate label vectors -/

lemma calc_quality_go_fp_tn_zero (l : List (ℝ × ℝ)) (h : ∀ uy ∈ l, 0 < uy.1) :
    (calc_quality_go l).fp = 0 ∧ (calc_quality_go l).tn = 0 := by
  induction l with
  | nil => simp [calc_quality_go]
  | cons uy rest ih =>
    have hh := h uy (List.mem_cons_self _ _)
    have ht := ih fun x hx => h x (List.mem_cons_of_mem _ hx)
    simp only [calc_quality_go]
    rw [if_pos hh]
    split_ifs <;> simp [ht.1, ht.2]

lemma calc_quality_go_tp_fn_zero (l : List (ℝ × ℝ)) (h : ∀ uy ∈ l, ¬0 < uy.1) :
    (calc_quality_go l).tp = 0 ∧ (calc_quality_go l).fn = 0 := by
  induction l with
  | nil => simp [calc_quality_go]
  | cons uy rest ih =>
    have hh := h uy (List.mem_cons_self _ _)
    have ht := ih fun x hx => h x (List.mem_cons_of_mem _ hx)
    simp only [calc_quality_go]
    rw [if_neg hh]
    split_ifs <;> simp [ht.1, ht.2]

lemma rocDist_none_of_all_pos (yt yr : List ℝ) (hy : ∀ t ∈ yt, 0 < t) (th : ℝ) :
    rocDist yt yr th = none := by
  have hzip : ∀ uy ∈ yt.zip (yr.map fun p => if th ≤ p then (1 : ℝ) else 0), 0 < uy.1 := by
    intro uy huy
    exact hy uy.1 (List.mem_zip huy).1
  have hq := calc_quality_go_fp_tn_zero _ hzip
  simp only [rocDist, calc_quality]
  set q := calc_quality_go (yt.zip (yr.map fun p => if th ≤ p then (1 : ℝ) else 0)) with hqdef
  have h2 : safeDiv (q.fp : ℝ) ((q.tn : ℝ) + (q.fp : ℝ)) = none := by
    simp [safeDiv, hq.1, hq.2]
  rcases safeDiv (q.tp : ℝ) ((q.tp : ℝ) + (q.fn : ℝ)) with _ | tpr <;> rw [h2]

lemma rocDist_none_of_all_nonpos (yt yr : List ℝ) (hy : ∀ t ∈ yt, ¬0 < t) (th : ℝ) :
    rocDist yt yr th = none := by
  have hzip : ∀ uy ∈ yt.zip (yr.map fun p => if th ≤ p then (1 : ℝ) else 0), ¬0 < uy.1 := by
    intro uy huy
    exact hy uy.1 (List.mem_zip huy).1
  have hq := calc_quality_go_tp_fn_zero _ hzip
  simp only [rocDist, calc_quality]
  set q := calc_quality_go (yt.zip (yr.map fun p => if th ≤ p then (1 : ℝ) else 0)) with hqdef
  have h2 : safeDiv (q.tp : ℝ) ((q.tp : ℝ) + (q.fn : ℝ)) = none := by
    simp [safeDiv, hq.1, hq.2]
  rw [h2]

lemma calc_best_th_go_head_none (g : ℝ → Option ℝ) (th : ℝ) (rest : List ℝ)
    (best mind : ℝ) (hg : g th = none) :
    calc_best_th_go g (th :: rest) best mind = none := by
  simp [calc_best_th_go, hg]

lemma calc_best_th_none_of_head (yt yr : List ℝ) (h : rocDist yt yr 0 = none) :
    calc_best_th yt yr = none := by
  have hdec : candidate_thresholds =
      (0 : ℝ) :: (((List.range 100).map Nat.succ).map fun a : ℕ => (a : ℝ) / 100) := by
    unfold candidate_thresholds
    rw [List.range_succ_eq_map]
    norm_num
  unfold calc_best_th
  rw [hdec]
  exact calc_best_th_go_head_none _ _ _ _ _ h

lemma calc_best_th_none_of_all_pos (yt yr : List ℝ) (hy : ∀ t ∈ yt, 0 < t) :
    calc_best_th yt yr = none :=
  calc_best_th_none_of_head yt yr (rocDist_none_of_all_pos yt yr hy 0)

lemma calc_best_th_none_of_all_nonpos (yt yr : List ℝ) (hy : ∀ t ∈ yt, ¬0 < t) :
    calc_best_th yt yr = none :=
  calc_best_th_none_of_head yt yr (rocDist_none_of_all_nonpos yt yr hy 0)

/-! ### Reduction of `fit` past its validation and inner `transform` -/

lemma calculate_gradient_snd_length (X : List (List ℝ)) (y : List ℝ) (a : ℝ) (b : List ℝ) :
    (calculate_gradient X y a b).2.length = b.length := by
  simp [calculate_gradient]

lemma addVec_length (u v : List ℝ) : (addVec u v).length = min u.length v.length := by
  simp [addVec]

lemma smulVec_length (c : ℝ) (v : List ℝ) : (smulVec c v).length = v.length := by
  simp [smulVec]

lemma fitLoopGo_b_length (X : List (List ℝ)) (y : List ℝ) (eps lr_max : ℝ) :
    ∀ (fuel : ℕ) (a : ℝ) (b : List ℝ) (f_old : ℝ),
      ((fitLoopGo X y eps lr_max fuel a b f_old).2.1).length = b.length := by
  intro fuel
  induction fuel with
  | zero =>
    intro a b f_old
    simp [fitLoopGo, addVec_length, smulVec_length, calculate_gradient_snd_length]
  | succ n ih =>
    intro a b f_old
    simp only [fitLoopGo]
    split_ifs with h
    · simp [addVec_length, smulVec_length, calculate_gradient_snd_length]
    · dsimp only
      rw [ih]
      simp [addVec_length, smulVec_length, calculate_gradient_snd_length]

/-- After successful validation, `fit` reduces to the training loop
followed by the threshold calibration on the training predictions. -/
lemma fit_main_eq (s : State) (X : NDArray) (y : List ℝ) (eps lr_max : ℝ)
    (max_iters : ℕ) (a0 : ℝ) (b0 : List ℝ)
    (h1 : X.rows.length = y.length) (heps : 0 < eps) (hlr : 0 < lr_max)
    (hmi : 1 ≤ max_iters) (hb0 : b0.length = X.ncols) :
    fit s X y eps lr_max max_iters a0 b0 =
      (match calc_best_th y (X.rows.map fun x => 1 / (1 + Real.exp
          (-dot x (fitLoopGo X.rows y eps lr_max (max_iters - 2) a0 b0
            (calculate_log_likelihood X.rows y a0 b0)).2.1 -
          (fitLoopGo X.rows y eps lr_max (max_iters - 2) a0 b0
            (calculate_log_likelihood X.rows y a0 b0)).1))) with
      | none =>
        (⟨some (fitLoopGo X.rows y eps lr_max (max_iters - 2) a0 b0
            (calculate_log_likelihood X.rows y a0 b0)).1,
          some (fitLoopGo X.rows y eps lr_max (max_iters - 2) a0 b0
            (calculate_log_likelihood X.rows y a0 b0)).2.1, s.th⟩,
          some Err.zeroDivisionError)
      | some t =>
        (⟨some (fitLoopGo X.rows y eps lr_max (max_iters - 2) a0 b0
            (calculate_log_likelihood X.rows y a0 b0)).1,
          some (fitLoopGo X.rows y eps lr_max (max_iters - 2) a0 b0
            (calculate_log_likelihood X.rows y a0 b0)).2.1, some t⟩, none)) := by
  unfold fit
  rw [if_neg (by simp [h1]), if_neg (by push_neg; exact ⟨heps, hlr, by omega⟩)]
  have hT := transform_of_some
    (fitLoopGo X.rows y eps lr_max (max_iters - 2) a0 b0
      (calculate_log_likelihood X.rows y a0 b0)).1
    (fitLoopGo X.rows y eps lr_max (max_iters - 2) a0 b0
      (calculate_log_likelihood X.rows y a0 b0)).2.1
    s.th X (by rw [fitLoopGo_b_length, hb0])
  simp only [hT]

/-- On a degenerate label vector (all labels positive, or none positive),
`fit` passes validation, trains, and then raises `ZeroDivisionError` in
the threshold calibration, leaving the freshly trained `__a`, `__b` and
the untouched previous `__th`. -/
lemma fit_degenerate (s : State) (X : NDArray) (y : List ℝ) (eps lr_max : ℝ)
    (max_iters : ℕ) (a0 : ℝ) (b0 : List ℝ)
    (hlen : X.rows.length = y.length) (heps : 0 < eps) (hlr : 0 < lr_max)
    (hmi : 1 ≤ max_iters) (hb0 : b0.length = X.ncols)
    (hy : (∀ t ∈ y, 0 < t) ∨ (∀ t ∈ y, ¬0 < t)) :
    ∃ a1 b1, fit s X y eps lr_max max_iters a0 b0 =
      (⟨some a1, some b1, s.th⟩, some Err.zeroDivisionError) := by
  rw [fit_main_eq s X y eps lr_max max_iters a0 b0 hlen heps hlr hmi hb0]
  have hC : calc_best_th y (X.rows.map fun x => 1 / (1 + Real.exp
      (-dot x (fitLoopGo X.rows y eps lr_max (max_iters - 2) a0 b0
        (calculate_log_likelihood X.rows y a0 b0)).2.1 -
      (fitLoopGo X.rows y eps lr_max (max_iters - 2) a0 b0
        (calculate_log_likelihood X.rows y a0 b0)).1))) = none := by
    cases hy with
    | inl hpos => exact calc_best_th_none_of_all_pos _ _ hpos
    | inr hneg => exact calc_best_th_none_of_all_nonpos _ _ hneg
  rw [hC]
  exact ⟨_, _, rfl⟩

/-- C4 (amended): when `fit` is called with a degenerate label vector `y`
(all labels positive, or none positive — in particular all-ones or
all-zeros), the threshold-calibration step does NOT complete: a
denominator `tn + fp` (respectively `tp + fn`) is zero at the very first
candidate threshold, the division raises `ZeroDivisionError`, `fit`
propagates it, and the threshold keeps its previous value instead of
being (re)defined. -/
theorem fit_degenerate_raises_division_error (s : State) (X : NDArray) (y : List ℝ)
    (eps lr_max : ℝ) (max_iters : ℕ) (a0 : ℝ) (b0 : List ℝ)
    (hlen : X.rows.length = y.length) (heps : 0 < eps) (hlr : 0 < lr_max)
    (hmi : 1 ≤ max_iters) (hb0 : b0.length = X.ncols)
    (hy : (∀ t ∈ y, 0 < t) ∨ (∀ t ∈ y, ¬0 < t)) :
    (fit s X y eps lr_max max_iters a0 b0).2 = some Err.zeroDivisionError ∧
      (fit s X y eps lr_max max_iters a0 b0).1.th = s.th := by
  obtain ⟨a1, b1, h⟩ := fit_degenerate s X y eps lr_max max_iters a0 b0
    hlen heps hlr hmi hb0 hy
  rw [h]
  exact ⟨rfl, rfl⟩

/-- Closed instance of `fit_degenerate_raises_division_error` on the
all-ones label vector `[1]`. -/
theorem fit_degenerate_raises_division_error_witness :
    (fit ⟨none, none, none⟩ mat11 [1] 1 1 1 0 [0]).2 = some Err.zeroDivisionError ∧
      (fit ⟨none, none, none⟩ mat11 [1] 1 1 1 0 [0]).1.th = (⟨none, none, none⟩ : State).th :=
  fit_degenerate_raises_division_error ⟨none, none, none⟩ mat11 [1] 1 1 1 0 [0]
    rfl (by norm_num) (by norm_num) (by norm_num) rfl
    (Or.inl (by intro t ht; rw [List.mem_singleton] at ht; subst ht; norm_num))

/-- C4 counterexample: on the all-zeros label vector `[0]` the
threshold-calibration step of `fit` does not complete without crashing: a
`ZeroDivisionError` escapes and the threshold is left undefined. -/
theorem fit_degenerate_crash_instance :
    (fit ⟨none, none, none⟩ mat11 [0] 1 1 1 0 [0]).2 = some Err.zeroDivisionError ∧
      (fit ⟨none, none, none⟩ mat11 [0] 1 1 1 0 [0]).1.th = none := by
  obtain ⟨a1, b1, h⟩ := fit_degenerate ⟨none, none, none⟩ mat11 [0] 1 1 1 0 [0]
    rfl (by norm_num) (by norm_num) (by norm_num) rfl
    (Or.inr (by intro t ht; rw [List.mem_singleton] at ht; subst ht; norm_num))
  rw [h]
  exact ⟨rfl, rfl⟩

/-! ### The definedness invariant of the model state -/

lemma loadGo_preserves_allOrNone :
    ∀ (lines : List Line) (st : State) (size : ℤ) (ind : ℕ),
      (0 < size → allSome st) → allOrNone st → allOrNone (loadGo lines st size ind).1 := by
  intro lines
  induction lines with
  | nil =>
    intro st size ind _ h2
    simp only [loadGo]
    split_ifs <;> exact h2
  | cons l rest ih =>
    intro st size ind h1 h2
    cases l with
    | blank => exact ih st size ind h1 h2
    | header d =>
      simp only [loadGo]
      split_ifs with hs hd hind
      · exact h2
      · refine ih _ _ _ (fun _ => ?_) (Or.inl ?_) <;> exact ⟨by simp, by simp, by simp⟩
      · exact h2
      · exact h2
    | junk =>
      simp only [loadGo]
      split_ifs <;> exact h2
    | num x =>
      simp only [loadGo]
      split_ifs with hs hind hlt heq hrange
      · exact h2
      · exact h2
      · have hsome := h1 (by omega)
        refine ih _ _ _ (fun _ => ⟨hsome.1, by simp, hsome.2.2⟩)
          (Or.inl ⟨hsome.1, by simp, hsome.2.2⟩)
      · have hsome := h1 (by omega)
        refine ih _ _ _ (fun _ => ⟨by simp, hsome.2.1, hsome.2.2⟩)
          (Or.inl ⟨by simp, hsome.2.1, hsome.2.2⟩)
      · have hsome := h1 (by omega)
        exact Or.inl ⟨hsome.1, hsome.2.1, by simp⟩
      · have hsome := h1 (by omega)
        refine ih _ _ _ (fun _ => ⟨hsome.1, hsome.2.1, by simp⟩)
          (Or.inl ⟨hsome.1, hsome.2.1, by simp⟩)

/-- After successful validation, `fit` either completes with all three
attributes freshly set, or raises `ZeroDivisionError` out of the threshold
calibration. -/
lemma fit_result_cases (s : State) (X : NDArray) (y : List ℝ) (eps lr_max : ℝ)
    (max_iters : ℕ) (a0 : ℝ) (b0 : List ℝ)
    (h1 : X.rows.length = y.length) (heps : 0 < eps) (hlr : 0 < lr_max)
    (hmi : 1 ≤ max_iters) (hb0 : b0.length = X.ncols) :
    (∃ a1 b1 t, fit s X y eps lr_max max_iters a0 b0 = (⟨some a1, some b1, some t⟩, none)) ∨
      ∃ a1 b1, fit s X y eps lr_max max_iters a0 b0 =
        (⟨some a1, some b1, s.th⟩, some Err.zeroDivisionError) := by
  rw [fit_main_eq s X y eps lr_max max_iters a0 b0 h1 heps hlr hmi hb0]
  cases hC : calc_best_th y (X.rows.map fun x => 1 / (1 + Real.exp
      (-dot x (fitLoopGo X.rows y eps lr_max (max_iters - 2) a0 b0
        (calculate_log_likelihood X.rows y a0 b0)).2.1 -
      (fitLoopGo X.rows y eps lr_max (max_iters - 2) a0 b0
        (calculate_log_likelihood X.rows y a0 b0)).1))) with
  | none => exact Or.inr ⟨_, _, rfl⟩
  | some t => exact Or.inl ⟨_, _, t, rfl⟩

/-- C3 (amended): the all-or-none definedness invariant of the model state
is preserved by every public operation — `transform`, `predict` and `save`
mutate nothing (their models return no state), `load` preserves it on
every path including every failure path, and `fit` preserves it whenever
it does not raise `ZeroDivisionError` during threshold calibration.  (The
initialiser argument `b0` has the length the source's random initialiser
`numpy.random.rand(X.shape[1])` always produces.)  The excluded
calibration failure genuinely violates the claim, see the
counterexample. -/
theorem public_ops_preserve_definedness (s : State) (hs : allOrNone s) :
    (∀ lines, allOrNone (load s lines).1) ∧
      (∀ (X : NDArray) (y : List ℝ) (eps lr_max : ℝ) (max_iters : ℕ) (a0 : ℝ) (b0 : List ℝ),
        b0.length = X.ncols →
          allOrNone (fit s X y eps lr_max max_iters a0 b0).1 ∨
            (fit s X y eps lr_max max_iters a0 b0).2 = some Err.zeroDivisionError) := by
  constructor
  · intro lines
    exact loadGo_preserves_allOrNone lines s (-1) 0 (fun h => absurd h (by norm_num)) hs
  · intro X y eps lrm mi a0 b0 hb0
    by_cases h1 : X.rows.length ≠ y.length
    · left
      unfold fit
      rw [if_pos h1]
      exact hs
    · by_cases h2 : eps ≤ 0 ∨ lrm ≤ 0 ∨ mi < 1
      · left
        unfold fit
        rw [if_neg h1, if_pos h2]
        exact hs
      · push_neg at h1 h2
        rcases fit_result_cases s X y eps lrm mi a0 b0 h1 h2.1 h2.2.1 (by omega) hb0 with
          ⟨a1, b1, t, hf⟩ | ⟨a1, b1, hf⟩
        · left
          rw [hf]
          exact Or.inl ⟨by simp, by simp, by simp⟩
        · right
          rw [hf]

/-- Closed instance of `public_ops_preserve_definedness` on the untrained
state. -/
theorem public_ops_preserve_definedness_witness :
    (∀ lines, allOrNone (load ⟨none, none, none⟩ lines).1) ∧
      (∀ (X : NDArray) (y : List ℝ) (eps lr_max : ℝ) (max_iters : ℕ) (a0 : ℝ) (b0 : List ℝ),
        b0.length = X.ncols →
          allOrNone (fit ⟨none, none, none⟩ X y eps lr_max max_iters a0 b0).1 ∨
            (fit ⟨none, none, none⟩ X y eps lr_max max_iters a0 b0).2 =
              some Err.zeroDivisionError) :=
  public_ops_preserve_definedness ⟨none, none, none⟩ (Or.inr ⟨rfl, rfl, rfl⟩)

/-- C3 counterexample: calling `fit` on a previously untrained model with
the all-ones label vector `[1]` makes the threshold calibration raise, and
the escaping call leaves `__a` and `__b` defined with `__th` still
undefined — an externally observable partially defined state. -/
theorem fit_degenerate_leaves_partial_state :
    ¬allOrNone (fit ⟨none, none, none⟩ mat11 [1] 1 (1 / 2) 2 0 [0]).1 := by
  obtain ⟨a1, b1, h⟩ := fit_degenerate ⟨none, none, none⟩ mat11 [1] 1 (1 / 2) 2 0 [0]
    rfl (by norm_num) (by norm_num) (by norm_num) rfl
    (Or.inl (by intro t ht; rw [List.mem_singleton] at ht; subst ht; norm_num))
  rw [h]
  simp [allOrNone]

/-! ### Persistence: counting lines and stepping the parser -/

lemma countNonBlank_nil : countNonBlank [] = 0 := rfl

lemma countNonBlank_blank_cons (rest : List Line) :
    countNonBlank (Line.blank :: rest) = countNonBlank rest := by
  simp [countNonBlank, Line.isBlank]

lemma countNonBlank_num_cons (x : ℝ) (rest : List Line) :
    countNonBlank (Line.num x :: rest) = countNonBlank rest + 1 := by
  simp [countNonBlank, Line.isBlank]

lemma loadGo_skips_leading_blanks :
    ∀ (pre : List Line), (∀ l ∈ pre, l = Line.blank) →
      ∀ (rest : List Line) (st : State) (size : ℤ) (ind : ℕ),
        loadGo (pre ++ rest) st size ind = loadGo rest st size ind := by
  intro pre
  induction pre with
  | nil => intro _ rest st size ind; rfl
  | cons l pre ih =>
    intro hpre rest st size ind
    have hl := hpre l (List.mem_cons_self _ _)
    subst hl
    exact ih (fun x hx => hpre x (List.mem_cons_of_mem _ hx)) rest st size ind

/-- If the data lines are all blank or numeric and too few parameters can
ever be parsed, the end-of-file check fires with the source's load error. -/
lemma loadGo_truncated :
    ∀ (tail : List Line) (st : State) (size : ℤ) (ind : ℕ),
      0 < size →
      (∀ l ∈ tail, l = Line.blank ∨ ∃ x, l = Line.num x) →
      (ind : ℤ) + countNonBlank tail ≤ size + 1 →
      (loadGo tail st size ind).2 = some Err.loadFailed := by
  intro tail
  induction tail with
  | nil =>
    intro st size ind _ _ hcount
    rw [countNonBlank_nil] at hcount
    simp only [loadGo]
    rw [if_pos (by omega)]
  | cons l rest ih =>
    intro st size ind hs hshape hcount
    rcases hshape l (List.mem_cons_self _ _) with hb | ⟨x, hx⟩
    · subst hb
      rw [countNonBlank_blank_cons] at hcount
      exact ih st size ind hs (fun u hu => hshape u (List.mem_cons_of_mem _ hu)) hcount
    · subst hx
      rw [countNonBlank_num_cons] at hcount
      have hle : (ind : ℤ) ≤ size := by push_cast at hcount ⊢; omega
      simp only [loadGo]
      rw [if_neg (by omega), if_neg (by omega)]
      by_cases hlt : (ind : ℤ) < size
      · rw [if_pos hlt]
        refine ih _ size (ind + 1) hs (fun u hu => hshape u (List.mem_cons_of_mem _ hu)) ?_
        push_cast at hcount ⊢
        omega
      · rw [if_neg hlt, if_pos (by omega)]
        refine ih _ size (ind + 1) hs (fun u hu => hshape u (List.mem_cons_of_mem _ hu)) ?_
        push_cast at hcount ⊢
        omega

/-- Symmetrically, once too many parameters are present, the
too-much-information check (or, for a threshold line out of range, the
range check) fires with the source's load error before the excess can be
consumed. -/
lemma loadGo_excess :
    ∀ (tail : List Line) (st : State) (size : ℤ) (ind : ℕ),
      0 < size →
      (∀ l ∈ tail, l = Line.blank ∨ ∃ x, l = Line.num x) →
      (ind : ℤ) ≤ size + 2 →
      size + 2 < (ind : ℤ) + countNonBlank tail →
      (loadGo tail st size ind).2 = some Err.loadFailed := by
  intro tail
  induction tail with
  | nil =>
    intro st size ind _ _ hle hgt
    rw [countNonBlank_nil] at hgt
    omega
  | cons l rest ih =>
    intro st size ind hs hshape hle hgt
    rcases hshape l (List.mem_cons_self _ _) with hb | ⟨x, hx⟩
    · subst hb
      rw [countNonBlank_blank_cons] at hgt
      exact ih st size ind hs (fun u hu => hshape u (List.mem_cons_of_mem _ hu)) hle hgt
    · subst hx
      rw [countNonBlank_num_cons] at hgt
      simp only [loadGo]
      rw [if_neg (by omega)]
      by_cases hover : (ind : ℤ) > size + 1
      · rw [if_pos hover]
      · rw [if_neg hover]
        by_cases hlt : (ind : ℤ) < size
        · rw [if_pos hlt]
          refine ih _ size (ind + 1) hs (fun u hu => hshape u (List.mem_cons_of_mem _ hu))
            (by push_cast; omega) ?_
          push_cast at hgt ⊢
          omega
        · rw [if_neg hlt]
          by_cases heq : (ind : ℤ) = size
          · rw [if_pos heq]
            refine ih _ size (ind + 1) hs (fun u hu => hshape u (List.mem_cons_of_mem _ hu))
              (by push_cast; omega) ?_
            push_cast at hgt ⊢
            omega
          · rw [if_neg heq]
            by_cases hrange : x < 0 ∨ 1 < x
            · rw [if_pos hrange]
            · rw [if_neg hrange]
              refine ih _ size (ind + 1) hs (fun u hu => hshape u (List.mem_cons_of_mem _ hu))
                (by push_cast; omega) ?_
              push_cast at hgt ⊢
              omega

/-- C9 (amended): for every file whose first non-blank line is a header
declaring a positive dimensionality `d` and whose remaining lines are
blank or numeric, if fewer than `d + 2` of them are non-blank then `load`
raises the source's load error (the spec's `CorruptFileError`) at
end-of-parse.  (A non-numeric data line would instead abort earlier with
Python's `ValueError`, see the counterexample.) -/
theorem load_truncated_raises_corrupt (s : State) (pre : List Line) (d : ℤ)
    (tail : List Line) (hpre : ∀ l ∈ pre, l = Line.blank) (hd : 0 < d)
    (htail : ∀ l ∈ tail, l = Line.blank ∨ ∃ x, l = Line.num x)
    (hcount : (countNonBlank tail : ℤ) < d + 2) :
    (load s (pre ++ Line.header d :: tail)).2 = some Err.loadFailed := by
  unfold load
  rw [loadGo_skips_leading_blanks pre hpre]
  simp only [loadGo]
  rw [if_pos (by norm_num), if_neg (by omega)]
  exact loadGo_truncated tail _ d 0 hd htail (by push_cast; omega)

/-- Closed instance of `load_truncated_raises_corrupt`: a header declaring
size 3 followed by a single data line. -/
theorem load_truncated_raises_corrupt_witness :
    (load ⟨none, none, none⟩ ([] ++ Line.header 3 :: [Line.num 1])).2 =
      some Err.loadFailed :=
  load_truncated_raises_corrupt ⟨none, none, none⟩ [] 3 [Line.num 1]
    (by intro l hl; simp at hl) (by norm_num)
    (by intro l hl; rw [List.mem_singleton] at hl; exact Or.inr ⟨1, hl⟩)
    (by norm_num [countNonBlank, Line.isBlank])

/-- C9 counterexample: a file declaring `Input size 3` followed by one
non-blank line that does not parse as a float makes `load` raise Python's
`ValueError` mid-parse, not the `LogRegError` that the spec's
`CorruptFileError` names, even though the file has fewer than `d + 2`
non-blank lines after the header. -/
theorem load_truncated_junk_value_error :
    (load ⟨none, none, none⟩ [Line.header 3, Line.junk]).2 = some Err.valueError ∧
      Err.valueError ≠ Err.loadFailed := by
  constructor
  · norm_num [load, loadGo]
  · decide

/-- C10 (amended): for every file whose first non-blank line is a header
declaring a positive dimensionality `d` and whose remaining lines are
blank or numeric, if more than `d + 2` of them are non-blank then `load`
raises the source's load error (the spec's `CorruptFileError`): extra
trailing data lines are rejected, not silently ignored.  (A non-numeric
line among the first `d + 2` data lines would instead abort with Python's
`ValueError`, see the counterexample.) -/
theorem load_excess_lines_rejected (s : State) (pre : List Line) (d : ℤ)
    (tail : List Line) (hpre : ∀ l ∈ pre, l = Line.blank) (hd : 0 < d)
    (htail : ∀ l ∈ tail, l = Line.blank ∨ ∃ x, l = Line.num x)
    (hcount : d + 2 < (countNonBlank tail : ℤ)) :
    (load s (pre ++ Line.header d :: tail)).2 = some Err.loadFailed := by
  unfold load
  rw [loadGo_skips_leading_blanks pre hpre]
  simp only [loadGo]
  rw [if_pos (by norm_num), if_neg (by omega)]
  exact loadGo_excess tail _ d 0 hd htail (by omega) (by push_cast; omega)

/-- Closed instance of `load_excess_lines_rejected`: a header declaring
size 1 followed by four numeric lines (one more than the `1 + 2`
parameters). -/
theorem load_excess_lines_rejected_witness :
    (load ⟨none, none, none⟩
        ([] ++ Line.header 1 :: [Line.num 2, Line.num 3, Line.num (1 / 2), Line.num 5])).2 =
      some Err.loadFailed :=
  load_excess_lines_rejected ⟨none, none, none⟩ [] 1
    [Line.num 2, Line.num 3, Line.num (1 / 2), Line.num 5]
    (by intro l hl; simp at hl) (by norm_num)
    (by
      intro l hl
      simp only [List.mem_cons, List.not_mem_nil, or_false] at hl
      rcases hl with h | h | h | h
      all_goals exact Or.inr ⟨_, h⟩)
    (by norm_num [countNonBlank, Line.isBlank])

/-- C10 counterexample: a file declaring `Input size 1` with more than
`1 + 2` non-blank lines after the header, the first of which does not
parse as a float: `load` raises Python's `ValueError` at that line, not
the `LogRegError` the spec's `CorruptFileError` names. -/
theorem load_excess_junk_value_error :
    (load ⟨none, none, none⟩
        [Line.header 1, Line.junk, Line.num 0, Line.num 0, Line.num 0]).2 =
      some Err.valueError ∧ Err.valueError ≠ Err.loadFailed := by
  constructor
  · norm_num [load, loadGo]
  · decide

/-! ### Persistence: the save/load round trip -/

lemma take_succ_set (l : List ℝ) (i : ℕ) (a : ℝ) (h : i < l.length) :
    (l.set i a).take (i + 1) = l.take i ++ [a] := by
  induction l generalizing i with
  | nil => simp at h
  | cons x xs ih =>
    cases i with
    | zero => simp
    | succ n =>
      simp only [List.set, List.take, List.cons_append, List.cons.injEq, true_and]
      exact ih n (by simpa using h)

lemma setSeq_eq (ws : List ℝ) :
    ∀ (cur : List ℝ) (ind : ℕ), ind + ws.length = cur.length →
      setSeq cur ind ws = cur.take ind ++ ws := by
  induction ws with
  | nil =>
    intro cur ind h
    simp only [List.length_nil, Nat.add_zero] at h
    simp only [setSeq, List.append_nil]
    rw [h, List.take_length]
  | cons w ws ih =>
    intro cur ind h
    simp only [List.length_cons] at h
    have hlt : ind < cur.length := by omega
    simp only [setSeq]
    rw [ih (cur.set ind w) (ind + 1) (by simp only [List.length_set]; omega)]
    rw [take_succ_set cur ind w hlt]
    simp

/-- Consuming the weight lines: each numeric line before index `size`
overwrites the next slot of `__b` and advances the counter. -/
lemma loadGo_nums (suffix : List Line) (size : ℤ) :
    ∀ (ws : List ℝ) (st : State) (cur : List ℝ) (ind : ℕ),
      st.b = some cur → 0 < size → (ind : ℤ) + ws.length ≤ size →
      loadGo (ws.map Line.num ++ suffix) st size ind =
        loadGo suffix { st with b := some (setSeq cur ind ws) } size (ind + ws.length) := by
  intro ws
  induction ws with
  | nil =>
    intro st cur ind hb _ _
    simp only [setSeq, List.map_nil, List.nil_append, List.length_nil, Nat.add_zero]
    rw [← hb]
  | cons w ws ih =>
    intro st cur ind hb hs hlen
    simp only [List.length_cons] at hlen
    have hlen2 : (ind : ℤ) + ws.length + 1 ≤ size := by push_cast at hlen ⊢; omega
    simp only [List.map_cons, List.cons_append, loadGo]
    rw [if_neg (by omega), if_neg (by omega), if_pos (by omega)]
    rw [hb]
    simp only [Option.getD_some, List.append_eq]
    rw [ih { st with b := some (cur.set ind w) } (cur.set ind w) (ind + 1) rfl hs
      (by push_cast; omega)]
    simp only [setSeq, List.length_cons]
    congr 1
    omega

/-- C5 (amended): for every fully defined model state with at least one
weight (`d >= 1`, as any state produced by training or loading has) and a
threshold in `[0, 1]`, saving and then loading restores bias, weights
(elementwise) and threshold exactly, whatever state the loading instance
started from.  (For `d = 0` the round trip fails: `load` rejects the
header `Input size 0`, see the counterexample.) -/
theorem save_load_round_trip (s : State) (a : ℝ) (b : List ℝ) (th : ℝ)
    (ha : s.a = some a) (hb : s.b = some b) (hth : s.th = some th)
    (hd : 1 ≤ b.length) (hth0 : 0 ≤ th) (hth1 : th ≤ 1) :
    ∃ f, save s = Except.ok f ∧ ∀ s0 : State, load s0 f = (s, none) := by
  have hsval : s = ⟨some a, some b, some th⟩ := by
    cases s
    simp_all
  subst hsval
  refine ⟨[Line.header (b.length : ℤ), Line.blank] ++ b.map Line.num ++
    [Line.blank, Line.num a, Line.blank, Line.num th], rfl, ?_⟩
  intro s0
  unfold load
  show loadGo (Line.header (b.length : ℤ) :: Line.blank ::
    (b.map Line.num ++ [Line.blank, Line.num a, Line.blank, Line.num th])) s0 (-1) 0 = _
  simp only [loadGo]
  rw [if_pos (by norm_num : (-1 : ℤ) ≤ 0), if_neg (by omega : ¬(b.length : ℤ) ≤ 0)]
  rw [loadGo_nums [Line.blank, Line.num a, Line.blank, Line.num th] (b.length : ℤ)
    b _ (List.replicate (b.length : ℤ).toNat 0) 0 rfl (by omega) (by push_cast; omega)]
  rw [setSeq_eq b (List.replicate (b.length : ℤ).toNat 0) 0 (by simp)]
  have c1 : ¬((b.length : ℤ) ≤ 0) := by omega
  have c2 : ¬(((b.length : ℕ) : ℤ) > (b.length : ℤ) + 1) := by omega
  have c3 : ¬(((b.length : ℕ) : ℤ) < (b.length : ℤ)) := by omega
  have c4 : ¬(((b.length + 1 : ℕ) : ℤ) > (b.length : ℤ) + 1) := by push_cast; omega
  have c5 : ¬(((b.length + 1 : ℕ) : ℤ) < (b.length : ℤ)) := by push_cast; omega
  have c6 : ¬(((b.length + 1 : ℕ) : ℤ) = (b.length : ℤ)) := by push_cast; omega
  have c7 : ¬(th < 0 ∨ 1 < th) := by push_neg; exact ⟨hth0, hth1⟩
  have c8 : ¬(((b.length + 1 + 1 : ℕ) : ℤ) ≤ (b.length : ℤ) + 1) := by push_cast; omega
  simp [loadGo, c1, c2, c3, c4, c5, c6, c7, c8]

/-- Closed instance of `save_load_round_trip` on a concrete trained
state. -/
theorem save_load_round_trip_witness :
    ∃ f, save ⟨some 1, some [2], some (1 / 2)⟩ = Except.ok f ∧
      ∀ s0 : State, load s0 f = (⟨some 1, some [2], some (1 / 2)⟩, none) :=
  save_load_round_trip ⟨some 1, some [2], some (1 / 2)⟩ 1 [2] (1 / 2)
    rfl rfl rfl (by norm_num) (by norm_num) (by norm_num)

/-- C5 counterexample: a fully defined state with an empty weight vector
(`d = 0`) saves a file whose header declares `Input size 0`, which `load`
rejects with the source's load error — save-then-load does not restore
this fully defined state, so the claim fails without the `d >= 1`
restriction. -/
theorem save_load_round_trip_fails_dim_zero :
    ∃ f, save ⟨some 0, some [], some (1 / 2)⟩ = Except.ok f ∧
      (load ⟨none, none, none⟩ f).2 = some Err.loadFailed := by
  refine ⟨_, rfl, ?_⟩
  norm_num [load, loadGo]

/-! ### Threshold calibration: the scan picks the first distance minimiser -/

/-- The scan of `__calc_best_th` over any candidate list whose distances
are all defined returns `some b` where either no candidate beat the
initial `min_dist` and `b` is the initial `best_th`, or `b` is the first
candidate achieving the minimum distance (strictly below the initial
`min_dist`). -/
lemma calc_best_th_go_spec (g : ℝ → Option ℝ) :
    ∀ (l : List ℝ) (best mind : ℝ),
      (∀ th ∈ l, ∃ v, g th = some v) →
      ∃ b, calc_best_th_go g l best mind = some b ∧
        ((b = best ∧ ∀ th ∈ l, ∀ v, g th = some v → mind ≤ v) ∨
          ∃ pre post vb, l = pre ++ b :: post ∧ g b = some vb ∧ vb < mind ∧
            (∀ th ∈ l, ∀ v, g th = some v → vb ≤ v) ∧
            (∀ th ∈ pre, ∀ v, g th = some v → vb < v)) := by
  intro l
  induction l with
  | nil =>
    intro best mind _
    exact ⟨best, rfl, Or.inl ⟨rfl, by simp⟩⟩
  | cons th rest ih =>
    intro best mind hsome
    obtain ⟨v, hv⟩ := hsome th (List.mem_cons_self _ _)
    have hrest : ∀ u ∈ rest, ∃ w, g u = some w :=
      fun u hu => hsome u (List.mem_cons_of_mem _ hu)
    simp only [calc_best_th_go, hv]
    by_cases hlt : v < mind
    · rw [if_pos hlt]
      obtain ⟨b, hb, hcase⟩ := ih th v hrest
      refine ⟨b, hb, Or.inr ?_⟩
      rcases hcase with ⟨rfl, hall⟩ | ⟨pre, post, vb, hsplit, hgb, hvb, hmin, hpre⟩
      · refine ⟨[], rest, v, by simp, hv, hlt, ?_, by simp⟩
        intro u hu w hw
        rcases List.mem_cons.mp hu with rfl | hu2
        · rw [hv] at hw
          injection hw with h
          rw [← h]
        · exact hall u hu2 w hw
      · refine ⟨th :: pre, post, vb, by rw [hsplit, List.cons_append], hgb, lt_trans hvb hlt, ?_, ?_⟩
        · intro u hu w hw
          rcases List.mem_cons.mp hu with rfl | hu2
          · rw [hv] at hw
            injection hw with h
            rw [← h]
            exact le_of_lt hvb
          · exact hmin u hu2 w hw
        · intro u hu w hw
          rcases List.mem_cons.mp hu with rfl | hu2
          · rw [hv] at hw
            injection hw with h
            rw [← h]
            exact hvb
          · exact hpre u hu2 w hw
    · rw [if_neg hlt]
      obtain ⟨b, hb, hcase⟩ := ih best mind hrest
      refine ⟨b, hb, ?_⟩
      rcases hcase with ⟨hbb, hall⟩ | ⟨pre, post, vb, hsplit, hgb, hvb, hmin, hpre⟩
      · refine Or.inl ⟨hbb, ?_⟩
        intro u hu w hw
        rcases List.mem_cons.mp hu with rfl | hu2
        · rw [hv] at hw
          injection hw with h
          rw [← h]
          exact le_of_not_lt hlt
        · exact hall u hu2 w hw
      · refine Or.inr ⟨th :: pre, post, vb, by rw [hsplit, List.cons_append], hgb, hvb, ?_, ?_⟩
        · intro u hu w hw
          rcases List.mem_cons.mp hu with rfl | hu2
          · rw [hv] at hw
            injection hw with h
            rw [← h]
            exact le_trans (le_of_lt hvb) (le_of_not_lt hlt)
          · exact hmin u hu2 w hw
        · intro u hu w hw
          rcases List.mem_cons.mp hu with rfl | hu2
          · rw [hv] at hw
            injection hw with h
            rw [← h]
            exact lt_of_lt_of_le hvb (le_of_not_lt hlt)
          · exact hpre u hu2 w hw

lemma zip_fst_mem_exists {l1 l2 : List ℝ} {u : ℝ} (hu : u ∈ l1)
    (hlen : l1.length ≤ l2.length) : ∃ v, (u, v) ∈ l1.zip l2 := by
  obtain ⟨i, hi, hv⟩ := List.mem_iff_getElem.mp hu
  have hi2 : i < l2.length := lt_of_lt_of_le hi hlen
  have hiz : i < (l1.zip l2).length := by
    rw [List.length_zip]
    omega
  refine ⟨l2[i], ?_⟩
  rw [← hv, show (l1[i], l2[i]) = (l1.zip l2)[i] from List.getElem_zip.symm]
  exact List.getElem_mem hiz

lemma calc_quality_go_tp_fn_pos (l : List (ℝ × ℝ)) (h : ∃ uy ∈ l, 0 < uy.1) :
    0 < (calc_quality_go l).tp + (calc_quality_go l).fn := by
  induction l with
  | nil => simp at h
  | cons uy rest ih =>
    simp only [calc_quality_go]
    rcases h with ⟨w, hw, hwpos⟩
    rcases List.mem_cons.mp hw with rfl | hw2
    · rw [if_pos hwpos]
      split_ifs <;> simp
    · have := ih ⟨w, hw2, hwpos⟩
      split_ifs <;> simp <;> omega

lemma calc_quality_go_fp_tn_pos (l : List (ℝ × ℝ)) (h : ∃ uy ∈ l, ¬0 < uy.1) :
    0 < (calc_quality_go l).fp + (calc_quality_go l).tn := by
  induction l with
  | nil => simp at h
  | cons uy rest ih =>
    simp only [calc_quality_go]
    rcases h with ⟨w, hw, hwneg⟩
    rcases List.mem_cons.mp hw with rfl | hw2
    · rw [if_neg hwneg]
      split_ifs <;> simp
    · have := ih ⟨w, hw2, hwneg⟩
      split_ifs <;> simp <;> omega

lemma calc_quality_go_fn_tn_zero (l : List (ℝ × ℝ)) (h : ∀ uy ∈ l, 0 < uy.2) :
    (calc_quality_go l).fn = 0 ∧ (calc_quality_go l).tn = 0 := by
  induction l with
  | nil => simp [calc_quality_go]
  | cons uy rest ih =>
    have hh := h uy (List.mem_cons_self _ _)
    have ht := ih fun x hx => h x (List.mem_cons_of_mem _ hx)
    simp only [calc_quality_go]
    split_ifs with h1 <;> simp [hh, ht.1, ht.2]

/-- With both classes present among the targets, both confusion-count
denominators are positive at every candidate threshold, so every
candidate's ROC distance is defined. -/
lemma rocDist_isSome (yt yr : List ℝ) (hlen : yt.length = yr.length)
    (hpos : ∃ u ∈ yt, 0 < u) (hneg : ∃ v ∈ yt, ¬0 < v) (th : ℝ) :
    ∃ d, rocDist yt yr th = some d ∧ 0 ≤ d := by
  simp only [rocDist, calc_quality]
  set pred := yr.map fun p => if th ≤ p then (1 : ℝ) else 0 with hpredef
  have hplen : yt.length ≤ pred.length := by rw [hpredef, List.length_map, hlen]
  set q := calc_quality_go (yt.zip pred) with hq
  obtain ⟨u, hu, hupos⟩ := hpos
  obtain ⟨w, hwv⟩ := zip_fst_mem_exists hu hplen
  obtain ⟨v, hv, hvneg⟩ := hneg
  obtain ⟨w2, hwv2⟩ := zip_fst_mem_exists hv hplen
  have h1 : 0 < q.tp + q.fn := calc_quality_go_tp_fn_pos _ ⟨(u, w), hwv, hupos⟩
  have h2 : 0 < q.fp + q.tn := calc_quality_go_fp_tn_pos _ ⟨(v, w2), hwv2, hvneg⟩
  have hd1 : ((q.tp : ℝ) + (q.fn : ℝ)) ≠ 0 := by
    have : (0 : ℝ) < (q.tp : ℝ) + (q.fn : ℝ) := by exact_mod_cast h1
    linarith
  have hd2 : ((q.tn : ℝ) + (q.fp : ℝ)) ≠ 0 := by
    have : (0 : ℝ) < (q.fp : ℝ) + (q.tn : ℝ) := by exact_mod_cast h2
    linarith
  rw [show safeDiv (q.tp : ℝ) ((q.tp : ℝ) + (q.fn : ℝ)) =
      some ((q.tp : ℝ) / ((q.tp : ℝ) + (q.fn : ℝ))) from by rw [safeDiv, if_neg hd1],
    show safeDiv (q.fp : ℝ) ((q.tn : ℝ) + (q.fp : ℝ)) =
      some ((q.fp : ℝ) / ((q.tn : ℝ) + (q.fp : ℝ))) from by rw [safeDiv, if_neg hd2]]
  exact ⟨_, rfl, Real.sqrt_nonneg _⟩

/-- At the candidate threshold `0.00`, every probability (being
nonnegative) is classified positive, so with both classes present
`TPR = FPR = 1` and the ROC distance is exactly `1`. -/
lemma rocDist_zero_eq_one (yt yr : List ℝ) (hlen : yt.length = yr.length)
    (hpos : ∃ u ∈ yt, 0 < u) (hneg : ∃ v ∈ yt, ¬0 < v) (hprob : ∀ p ∈ yr, 0 ≤ p) :
    rocDist yt yr 0 = some 1 := by
  simp only [rocDist, calc_quality]
  set pred := yr.map fun p => if (0 : ℝ) ≤ p then (1 : ℝ) else 0 with hpredef
  have hplen : yt.length ≤ pred.length := by rw [hpredef, List.length_map, hlen]
  have hpred : ∀ z ∈ pred, 0 < z := by
    intro z hz
    rw [hpredef, List.mem_map] at hz
    obtain ⟨p, hp, hz⟩ := hz
    rw [← hz, if_pos (hprob p hp)]
    norm_num
  set q := calc_quality_go (yt.zip pred) with hq
  have hzip2 : ∀ uy ∈ yt.zip pred, 0 < uy.2 := by
    intro uy huy
    exact hpred uy.2 (List.mem_zip huy).2
  have hfz : q.fn = 0 ∧ q.tn = 0 := calc_quality_go_fn_tn_zero _ hzip2
  obtain ⟨u, hu, hupos⟩ := hpos
  obtain ⟨w, hwv⟩ := zip_fst_mem_exists hu hplen
  obtain ⟨v, hv, hvneg⟩ := hneg
  obtain ⟨w2, hwv2⟩ := zip_fst_mem_exists hv hplen
  have h1 : 0 < q.tp + q.fn := calc_quality_go_tp_fn_pos _ ⟨(u, w), hwv, hupos⟩
  have h2 : 0 < q.fp + q.tn := calc_quality_go_fp_tn_pos _ ⟨(v, w2), hwv2, hvneg⟩
  have hfn0 := hfz.1
  have htn0 := hfz.2
  have htp : 0 < q.tp := by omega
  have hfp : 0 < q.fp := by omega
  have htpR : ((q.tp : ℝ)) ≠ 0 := by
    have : (0 : ℝ) < (q.tp : ℝ) := by exact_mod_cast htp
    linarith
  have hfpR : ((q.fp : ℝ)) ≠ 0 := by
    have : (0 : ℝ) < (q.fp : ℝ) := by exact_mod_cast hfp
    linarith
  rw [show safeDiv (q.tp : ℝ) ((q.tp : ℝ) + (q.fn : ℝ)) = some 1 from by
      rw [safeDiv, hfz.1]
      push_cast
      rw [add_zero, if_neg htpR, div_self htpR],
    show safeDiv (q.fp : ℝ) ((q.tn : ℝ) + (q.fp : ℝ)) = some 1 from by
      rw [safeDiv, hfz.2]
      push_cast
      rw [zero_add, if_neg hfpR, div_self hfpR]]
  norm_num

lemma mem_candidates_iff (x : ℝ) :
    x ∈ candidate_thresholds ↔ ∃ a : ℕ, a ∈ List.range 101 ∧ (a : ℝ) / 100 = x := by
  unfold candidate_thresholds
  exact List.mem_map

lemma zero_mem_candidates : (0 : ℝ) ∈ candidate_thresholds := by
  rw [mem_candidates_iff]
  exact ⟨0, by simp, by norm_num⟩

lemma candidates_nonneg : ∀ th ∈ candidate_thresholds, 0 ≤ th := by
  intro th hth
  rw [mem_candidates_iff] at hth
  obtain ⟨a, ha, hth⟩ := hth
  rw [← hth]
  positivity

lemma candidates_pairwise : candidate_thresholds.Pairwise (· ≤ ·) := by
  unfold candidate_thresholds
  exact List.Pairwise.map (fun a : ℕ => (a : ℝ) / 100)
    (fun a b hab => by
      have hc : (a : ℝ) ≤ (b : ℝ) := Nat.cast_le.mpr hab.le
      linarith)
    (List.pairwise_lt_range 101)

/-- C2: for every target vector containing both classes and every vector
of nonnegative predicted probabilities of the same length, the threshold
computed by `__calc_best_th` (and stored by `fit`) is a candidate in
`{0.00, 0.01, ..., 1.00}` whose ROC distance `sqrt(FPR² + (1-TPR)²)` is
defined and minimal among all candidates, and among equally-distant
candidates it is the smallest (first encountered). -/
theorem calc_best_th_first_argmin (y_target y_real : List ℝ)
    (hlen : y_target.length = y_real.length)
    (hpos : ∃ u ∈ y_target, 0 < u) (hneg : ∃ v ∈ y_target, ¬0 < v)
    (hprob : ∀ p ∈ y_real, 0 ≤ p) :
    ∃ t dt, calc_best_th y_target y_real = some t ∧ t ∈ candidate_thresholds ∧
      rocDist y_target y_real t = some dt ∧
      ∀ th ∈ candidate_thresholds, ∀ d, rocDist y_target y_real th = some d →
        dt ≤ d ∧ (d ≤ dt → t ≤ th) := by
  have hsome : ∀ th, ∃ d, rocDist y_target y_real th = some d ∧ 0 ≤ d :=
    rocDist_isSome y_target y_real hlen hpos hneg
  obtain ⟨bres, hbres, hcases⟩ :=
    calc_best_th_go_spec (rocDist y_target y_real) candidate_thresholds 0 1
      (fun th _ => (hsome th).imp fun d hd => hd.1)
  rcases hcases with ⟨hb0, hall⟩ | ⟨pre, post, vb, hsplit, hgb, hvb, hmin, hpre⟩
  · subst hb0
    have h0 := rocDist_zero_eq_one y_target y_real hlen hpos hneg hprob
    refine ⟨0, 1, hbres, zero_mem_candidates, h0, ?_⟩
    intro th hth d hd
    exact ⟨hall th hth d hd, fun _ => candidates_nonneg th hth⟩
  · have hbmem : bres ∈ candidate_thresholds := by
      rw [hsplit]
      exact List.mem_append.mpr (Or.inr (List.mem_cons_self _ _))
    refine ⟨bres, vb, hbres, hbmem, hgb, ?_⟩
    intro th hth d hd
    refine ⟨hmin th hth d hd, ?_⟩
    intro hdle
    have hdeq : d = vb := le_antisymm hdle (hmin th hth d hd)
    have hth2 : th ∈ pre ++ bres :: post := by rw [← hsplit]; exact hth
    rcases List.mem_append.mp hth2 with hpre2 | hpost
    · exact absurd hdeq (ne_of_gt (hpre th hpre2 d hd))
    · rcases List.mem_cons.mp hpost with rfl | hpost2
      · exact le_refl th
      · have hp := candidates_pairwise
        rw [hsplit] at hp
        have hp2 := (List.pairwise_append.mp hp).2.1
        exact (List.pairwise_cons.mp hp2).1 th hpost2

/-- Closed instance of `calc_best_th_first_argmin` on the two-sample
training set with labels `[1, 0]` and predicted probabilities
`[1/2, 1/2]`. -/
theorem calc_best_th_first_argmin_witness :
    ∃ t dt, calc_best_th [1, 0] [1 / 2, 1 / 2] = some t ∧ t ∈ candidate_thresholds ∧
      rocDist [1, 0] [1 / 2, 1 / 2] t = some dt ∧
      ∀ th ∈ candidate_thresholds, ∀ d, rocDist [1, 0] [1 / 2, 1 / 2] th = some d →
        dt ≤ d ∧ (d ≤ dt → t ≤ th) :=
  calc_best_th_first_argmin [1, 0] [1 / 2, 1 / 2] rfl
    ⟨1, by simp, by norm_num⟩ ⟨0, by simp, by norm_num⟩
    (by
      intro p hp
      simp only [List.mem_cons, List.not_mem_nil, or_false] at hp
      rcases hp with h | h <;> rw [h] <;> norm_num)

end LogReg
